import Mathlib

/-!
Verification of the trending-business scoring engine (`app/trending.py` and the
scheduler-side scoring path in `app/main.py`).

Modelling conventions:
* Python floats are modelled as exact rationals (`ℚ`); all smoothing constants
  (0.5, 0.3, 1.2) appear as the rationals 1/2, 3/10, 6/5.
* Python dicts keyed by company name are modelled as association lists with
  Python's update-in-place-or-append semantics (`dictSetG`) and first-hit
  lookup (`plookup`).
* The compiled regexes `(?i)(?<![\w$])phrase(?![\w$])` and
  `(?i)(?<![\w])\$?ticker(?![\w])` are modelled positionally: `\w` is modelled
  on ASCII as alphanumeric-or-underscore, case folding via `Char.toLower`.
  `re.findall` is modelled as a left-to-right non-overlapping scan
  (`countWordGo` / `countTickerGo`, fuelled structurally so that concrete
  inputs evaluate by `decide`).
* Python exceptions raised while restoring persisted state are modelled with
  `Except String`.
-/

namespace Trending

/-- Python `\w` on ASCII: letters, digits, underscore (`re` word character). -/
def isWordChar (c : Char) : Bool := c.isAlphanum || c == '_'

/-- Case-insensitive comparison used by the `(?i)` flag (ASCII case folding). -/
def ciStarts : List Char → List Char → Bool
  | [], _ => true
  | _ :: _, [] => false
  | a :: as, b :: bs => (a.toLower == b.toLower) && ciStarts as bs

/-- Lookbehind `(?<![\w$])` of the name/alias pattern at position `i`. -/
def boundaryOkBefore (text : List Char) (i : Nat) : Bool :=
  match i with
  | 0 => true
  | j + 1 =>
    match text.get? j with
    | some c => !(isWordChar c || c == '$')
    | none => true

/-- Lookahead `(?![\w$])` of the name/alias pattern at position `j`. -/
def boundaryOkAfter (text : List Char) (j : Nat) : Bool :=
  match text.get? j with
  | some c => !(isWordChar c || c == '$')
  | none => true

/-- One attempted match of `(?i)(?<![\w$])phrase(?![\w$])` at position `i`
(`TrendingDetector._compile_word_pattern`). -/
def matchWordAt (text phrase : List Char) (i : Nat) : Bool :=
  ciStarts phrase (text.drop i) && boundaryOkBefore text i
    && boundaryOkAfter text (i + phrase.length)

/-- Lookbehind `(?<![\w])` of the ticker pattern (a `$` before is allowed). -/
def tickBoundaryBefore (text : List Char) (i : Nat) : Bool :=
  match i with
  | 0 => true
  | j + 1 =>
    match text.get? j with
    | some c => !isWordChar c
    | none => true

/-- Lookahead `(?![\w])` of the ticker pattern. -/
def tickBoundaryAfter (text : List Char) (j : Nat) : Bool :=
  match text.get? j with
  | some c => !isWordChar c
  | none => true

/-- One attempted match of `(?i)(?<![\w])\$?ticker(?![\w])` at position `i`,
returning the number of consumed characters (`\$?` is tried greedily first,
as the regex engine does). -/
def matchTickerAt (text sym : List Char) (i : Nat) : Option Nat :=
  if tickBoundaryBefore text i then
    if (text.get? i == some '$') && ciStarts sym (text.drop (i + 1))
        && tickBoundaryAfter text (i + 1 + sym.length) then
      some (1 + sym.length)
    else if ciStarts sym (text.drop i) && tickBoundaryAfter text (i + sym.length) then
      some sym.length
    else none
  else none

/-- `re.findall` scan for a name/alias pattern: left-to-right, non-overlapping,
advancing past each match. The first argument is fuel (one unit per text
position), kept structural so that concrete inputs compute by `decide`;
`countWord` always supplies enough fuel. `skip` counts positions still to be
jumped over after a match. -/
def countWordGo (text phrase : List Char) : Nat → Nat → Nat → Nat
  | 0, _, _ => 0
  | fuel + 1, i, skip + 1 => countWordGo text phrase fuel (i + 1) skip
  | fuel + 1, i, 0 =>
    if text.length < i then 0
    else if matchWordAt text phrase i then
      1 + countWordGo text phrase fuel (i + 1) (max 1 phrase.length - 1)
    else countWordGo text phrase fuel (i + 1) 0

/-- Number of matches of the compiled name/alias pattern in `text`. -/
def countWord (text phrase : List Char) : Nat :=
  countWordGo text phrase (text.length + phrase.length + 2) 0 0

/-- `re.findall` scan for a ticker pattern (match length varies with `\$?`). -/
def countTickerGo (text sym : List Char) : Nat → Nat → Nat → Nat
  | 0, _, _ => 0
  | fuel + 1, i, skip + 1 => countTickerGo text sym fuel (i + 1) skip
  | fuel + 1, i, 0 =>
    if text.length < i then 0
    else
      match matchTickerAt text sym i with
      | some k => 1 + countTickerGo text sym fuel (i + 1) (max 1 k - 1)
      | none => countTickerGo text sym fuel (i + 1) 0

/-- Number of matches of the compiled ticker pattern in `text`. -/
def countTicker (text sym : List Char) : Nat :=
  countTickerGo text sym (text.length + sym.length + 3) 0 0

/-- A compiled matcher: a name/alias pattern or a ticker pattern. -/
inductive Pat where
  | word (phrase : String)
  | tick (sym : String)
deriving DecidableEq

/-- Match count of one compiled pattern against one text. -/
def countPat (text : List Char) : Pat → Nat
  | .word p => countWord text p.data
  | .tick s => countTicker text s.data

/-- A company roster row (`Company` dataclass). -/
structure Company where
  name : String
  ticker : Option String
  aliases : List String
deriving DecidableEq

/-- Pattern list built in `TrendingDetector.__init__`: name first, then each
alias in declared order, then the ticker pattern if a ticker is present. -/
def compileCompany (c : Company) : List Pat :=
  (Pat.word c.name :: c.aliases.map Pat.word)
    ++ (match c.ticker with | some t => [Pat.tick t] | none => [])

/-- Label reconstruction from a matched pattern index
(`TrendingDetector._count_mentions`, lines 79-86): index 0 is the company
name, indices 1..len(aliases) are the aliases, the index after the aliases is
the `$ticker` form when a ticker exists, anything else yields no label. -/
def labelOfCompany (c : Company) (i : Nat) : Option String :=
  if i = 0 then some c.name
  else if h : i - 1 < c.aliases.length then some (c.aliases.get ⟨i - 1, h⟩)
  else
    match c.ticker with
    | some t => if i = c.aliases.length + 1 then some ("$" ++ t) else none
    | none => none

/-- The per-company loop of `_count_mentions`: sum the match counts of all
patterns and remember the label of the first pattern that matched. -/
def mentionsLoop (c : Company) (text : List Char) :
    List Pat → Nat → Nat × Option String → Nat × Option String
  | [], _, acc => acc
  | p :: ps, i, acc =>
    let n := countPat text p
    let acc' :=
      if 0 < n then
        (acc.1 + n, match acc.2 with | none => labelOfCompany c i | some a => some a)
      else acc
    mentionsLoop c text ps (i + 1) acc'

/-- Total mention count and first matched label for one company in one text. -/
def countCompanyMentions (c : Company) (text : List Char) : Nat × Option String :=
  mentionsLoop c text (compileCompany c) 0 (0, none)

/-- Association-list lookup with Python dict semantics (first binding wins;
the lists we build keep keys unique). -/
def plookup {β : Type} : List (String × β) → String → Option β
  | [], _ => none
  | e :: rest, k => if e.1 = k then some e.2 else plookup rest k

/-- Python dict assignment `d[k] = v`: update in place when the key exists,
append otherwise. -/
def dictSetG {β : Type} : List (String × β) → String → β → List (String × β)
  | [], k, v => [(k, v)]
  | e :: rest, k, v => if e.1 = k then (e.1, v) :: rest else e :: dictSetG rest k v

/-- `_count_mentions`: mapping from company name to (count, first label),
with zero-count companies omitted. -/
def countMentions (roster : List Company) (text : List Char) :
    List (String × (Nat × Option String)) :=
  roster.foldl
    (fun acc c =>
      let r := countCompanyMentions c text
      if 0 < r.1 then dictSetG acc c.name r else acc)
    []

/-- Python `prev or new` on optional label strings: `None` and `""` are falsy. -/
def pyOr (a b : Option String) : Option String :=
  match a with
  | some s => if s = "" then b else some s
  | none => b

/-- Merging one per-text entry into the batch aggregate
(`score_titles`, lines 96-101). -/
def mergeEntry (agg : List (String × (Nat × Option String)))
    (e : String × (Nat × Option String)) : List (String × (Nat × Option String)) :=
  match plookup agg e.1 with
  | some prev => dictSetG agg e.1 (prev.1 + e.2.1, pyOr prev.2 e.2.2)
  | none => dictSetG agg e.1 e.2

/-- Aggregate mention counts and first labels over a batch of titles. -/
def aggCounts (roster : List Company) (titles : List String) :
    List (String × (Nat × Option String)) :=
  titles.foldl (fun agg title => (countMentions roster title.data).foldl mergeEntry agg) []

/-- EMA factor for the baseline register (`self.alpha = 0.3`). -/
def alphaBase : ℚ := 3 / 10

/-- EMA factor for the recent-count register (`self.recent_alpha = 0.5`). -/
def recentAlpha : ℚ := 1 / 2

/-- `self.min_mentions_for_trend = 2.0`; set by the constructor but unused by
`score_titles`. -/
def minMentionsForTrend : ℚ := 2

/-- The two per-company EMA registers of the detector. -/
structure DetectorState where
  baseline : List (String × ℚ)
  recentEma : List (String × ℚ)
deriving DecidableEq

/-- `agg_counts.get(company.name, (0, None))[0]` as a float. -/
def rawOf (agg : List (String × (Nat × Option String))) (n : String) : ℚ :=
  ((plookup agg n).map (fun e => (e.1 : ℚ))).getD 0

/-- `agg_counts.get(company.name, (0, None))[1]`. -/
def aliasOf (agg : List (String × (Nat × Option String))) (n : String) : Option String :=
  ((plookup agg n).map (fun e => e.2)).getD none

/-- `self.baseline.get(company.name, 0.0)` (the pre-update baseline). -/
def preBase (st : DetectorState) (n : String) : ℚ := (plookup st.baseline n).getD 0

/-- `self.recent_ema.get(company.name, raw_recent)`: note that a register that
was never set defaults to the current raw count, not to zero. -/
def prevRec (st : DetectorState) (n : String) (raw : ℚ) : ℚ :=
  (plookup st.recentEma n).getD raw

/-- `smoothed_recent = (1 - recent_alpha) * prev_recent_ema + recent_alpha * raw_recent`. -/
def smoothedOf (st : DetectorState) (agg : List (String × (Nat × Option String)))
    (n : String) : ℚ :=
  (1 - recentAlpha) * prevRec st n (rawOf agg n) + recentAlpha * rawOf agg n

/-- `lift = (smoothed_recent + 1.0) / (baseline + 1.0)`. -/
def liftOf (st : DetectorState) (agg : List (String × (Nat × Option String)))
    (n : String) : ℚ :=
  (smoothedOf st agg n + 1) / (preBase st n + 1)

/-- `new_baseline = (1 - alpha) * baseline + alpha * smoothed_recent`. -/
def newBaseOf (st : DetectorState) (agg : List (String × (Nat × Option String)))
    (n : String) : ℚ :=
  (1 - alphaBase) * preBase st n + alphaBase * smoothedOf st agg n

/-- Python `cleaned.replace(pat, "")` for a non-empty literal `pat`: removes
every non-overlapping occurrence, scanning left to right. The first argument
of `pyReplaceGo` is fuel, one unit per consumed character. -/
def pyReplaceGo (pat : List Char) : Nat → List Char → List Char
  | 0, l => l
  | _, [] => []
  | fuel + 1, c :: cs =>
    if pat ≠ [] && pat.isPrefixOf (c :: cs) then
      pyReplaceGo pat fuel (List.drop pat.length (c :: cs))
    else c :: pyReplaceGo pat fuel cs

/-- `str.replace(pat, "")`. -/
def pyReplace (pat l : List Char) : List Char := pyReplaceGo pat l.length l

/-- Drop through the first `)` of a list, or fail when there is none
(the `[^)]*\)` tail of the lookaround-stripping regexes). -/
def dropThroughClose : List Char → Option (List Char)
  | [] => none
  | c :: cs => if c = ')' then some cs else dropThroughClose cs

/-- `re.sub(tag + "[^)]*\)", "", l)` for a literal opener `tag` such as
`"(?<!"` or `"(?!"`: wherever `tag` occurs and a `)` follows, remove
everything from the opener through that first `)`; scan left to right. -/
def pySubTagGo (tag : List Char) : Nat → List Char → List Char
  | 0, l => l
  | _, [] => []
  | fuel + 1, c :: cs =>
    match
      (if tag.isPrefixOf (c :: cs) then dropThroughClose (List.drop tag.length (c :: cs))
       else none) with
    | some rest => pySubTagGo tag fuel rest
    | none => c :: pySubTagGo tag fuel cs

/-- `re.sub` of a lookaround-shaped tag, with enough fuel. -/
def pySubTag (tag l : List Char) : List Char := pySubTagGo tag l.length l

/-- The character-removal phase of `_clean_alias`: drop `(?i)` occurrences,
`(?<!...)` and `(?!...)` lookaround-shaped substrings, then all backslashes
(lines 160-167). -/
def cleanRemovals (l : List Char) : List Char :=
  (pySubTag "(?!".data (pySubTag "(?<!".data (pyReplace "(?i)".data l))).filter
    (fun c => c ≠ '\\')

/-- `cleaned.strip(ch)`: remove every leading and trailing occurrence of `ch`. -/
def stripChar (ch : Char) (l : List Char) : List Char :=
  ((l.dropWhile (fun c => c = ch)).reverse.dropWhile (fun c => c = ch)).reverse

/-- `cleaned.strip()`: trim whitespace from both ends. -/
def stripWsEnds (l : List Char) : List Char :=
  ((l.dropWhile Char.isWhitespace).reverse.dropWhile Char.isWhitespace).reverse

/-- The characters that make `_clean_alias` hide the label entirely. -/
def specialChars : List Char := ['(', ')', '[', ']', '?', '*', '+']

/-- Whether a cleaned label still contains one of the hidden characters. -/
def hasSpecial (l : List Char) : Bool := l.any (fun c => specialChars.contains c)

/-- `TrendingDetector._clean_alias` (lines 155-174): empty labels stay empty;
otherwise run the removal phase, strip `$` from both ends, hide the label
when a special character remains, and finally trim whitespace. -/
def cleanAlias (label : String) : String :=
  if label = "" then ""
  else
    let s5 := stripChar '$' (cleanRemovals label.data)
    if hasSpecial s5 then "" else String.mk (stripWsEnds s5)

/-- The `alias_used` field of a result row (`score_titles`, lines 136-141):
`None` unless the aggregated label is truthy, in which case it is cleaned. -/
def cleanedAlias : Option String → Option String
  | none => none
  | some s => if s = "" then none else some (cleanAlias s)

/-- One output row of `score_titles` (keys of the result dict). -/
structure ScoreResult where
  name : String
  ticker : Option String
  recentCount : ℚ
  baseline : ℚ
  lift : ℚ
  timestamp : String
  aliasUsed : Option String
deriving DecidableEq

/-- The inclusion filter of `score_titles` line 127:
`raw_recent > 0 or lift > 1.2`. -/
def includeCond (agg : List (String × (Nat × Option String))) (st : DetectorState)
    (c : Company) : Prop :=
  0 < rawOf agg c.name ∨ 6 / 5 < liftOf st agg c.name

instance (agg : List (String × (Nat × Option String))) (st : DetectorState)
    (c : Company) : Decidable (includeCond agg st c) := by
  unfold includeCond; infer_instance

/-- The result row appended for an included company (`score_titles`,
lines 128-141): `recent_count` is the smoothed value and `baseline` the
pre-update baseline. -/
def entryOf (agg : List (String × (Nat × Option String))) (ts : String)
    (st : DetectorState) (c : Company) : ScoreResult :=
  { name := c.name
    ticker := c.ticker
    recentCount := smoothedOf st agg c.name
    baseline := preBase st c.name
    lift := liftOf st agg c.name
    timestamp := ts
    aliasUsed := cleanedAlias (aliasOf agg c.name) }

/-- The state mutation of one loop iteration of `score_titles`
(lines 115 and 123): write the smoothed recent count, then the new baseline. -/
def stateUpd (agg : List (String × (Nat × Option String))) (c : Company)
    (st : DetectorState) : DetectorState :=
  { baseline := dictSetG st.baseline c.name (newBaseOf st agg c.name)
    recentEma := dictSetG st.recentEma c.name (smoothedOf st agg c.name) }

/-- One iteration of the per-company loop of `score_titles` (lines 105-141). -/
def stepCompany (agg : List (String × (Nat × Option String))) (ts : String)
    (c : Company) (st : DetectorState) : Option ScoreResult × DetectorState :=
  (if includeCond agg st c then some (entryOf agg ts st c) else none, stateUpd agg c st)

/-- The per-company loop of `score_titles`, threading the mutable state. -/
def scoreLoop (agg : List (String × (Nat × Option String))) (ts : String) :
    List Company → DetectorState → List ScoreResult × DetectorState
  | [], st => ([], st)
  | c :: cs, st =>
    let r := stepCompany agg ts c st
    let rest := scoreLoop agg ts cs r.2
    (r.1.toList ++ rest.1, rest.2)

/-- Descending composite sort key of `score_titles` line 144: higher lift
first, ties broken by higher smoothed recent count. -/
def keyGE (a b : ScoreResult) : Prop :=
  b.lift < a.lift ∨ (a.lift = b.lift ∧ b.recentCount ≤ a.recentCount)

instance : DecidableRel keyGE := fun a b => by unfold keyGE; infer_instance

instance : IsTotal ScoreResult keyGE := by
  constructor
  intro a b
  rcases lt_trichotomy a.lift b.lift with h | h | h
  · exact Or.inr (Or.inl h)
  · rcases le_total b.recentCount a.recentCount with h2 | h2
    · exact Or.inl (Or.inr ⟨h, h2⟩)
    · exact Or.inr (Or.inr ⟨h.symm, h2⟩)
  · exact Or.inl (Or.inl h)

instance : IsTrans ScoreResult keyGE := by
  constructor
  intro a b c hab hbc
  rcases hab with h1 | ⟨h1, h1'⟩
  · rcases hbc with h2 | ⟨h2, _⟩
    · exact Or.inl (h2.trans h1)
    · exact Or.inl (h2 ▸ h1)
  · rcases hbc with h2 | ⟨h2, h2'⟩
    · exact Or.inl (h1 ▸ h2)
    · exact Or.inr ⟨h1.trans h2, h2'.trans h1'⟩

/-- `all_results.sort(key=lambda r: (r["lift"], r["recent_count"]), reverse=True)`:
Python's sort is stable, and a stable descending sort by a total preorder is
exactly insertion sort with the reflexive descending relation. -/
def pySortResults (l : List ScoreResult) : List ScoreResult := List.insertionSort keyGE l

/-- `score_titles` before the final truncation: the sorted full result list
together with the updated state. -/
def scoreAllTitles (roster : List Company) (st : DetectorState) (titles : List String)
    (ts : String) : List ScoreResult × DetectorState :=
  let agg := aggCounts roster titles
  let r := scoreLoop agg ts roster st
  (pySortResults r.1, r.2)

/-- `TrendingDetector.score_titles`: the sorted list truncated to 20 rows,
plus the state mutation. -/
def scoreTitles (roster : List Company) (st : DetectorState) (titles : List String)
    (ts : String) : List ScoreResult × DetectorState :=
  let r := scoreAllTitles roster st titles ts
  (r.1.take 20, r.2)

/-- The inclusion filter of the reimplemented scoring pass in
`app/main.py` `refresh_trending` line 97: it uses the raw batch count, not the
smoothed one. -/
def refreshIncl (agg : List (String × (Nat × Option String))) (st : DetectorState)
    (c : Company) : Prop :=
  0 < rawOf agg c.name ∨ 6 / 5 < (rawOf agg c.name + 1) / (preBase st c.name + 1)

instance (agg : List (String × (Nat × Option String))) (st : DetectorState)
    (c : Company) : Decidable (refreshIncl agg st c) := by
  unfold refreshIncl; infer_instance

/-- A result row of `refresh_trending` (lines 98-110): `recent_count` and
`lift` come from the raw batch count. -/
def refreshEntryOf (agg : List (String × (Nat × Option String))) (ts : String)
    (st : DetectorState) (c : Company) : ScoreResult :=
  { name := c.name
    ticker := c.ticker
    recentCount := rawOf agg c.name
    baseline := preBase st c.name
    lift := (rawOf agg c.name + 1) / (preBase st c.name + 1)
    timestamp := ts
    aliasUsed := cleanedAlias (aliasOf agg c.name) }

/-- The state mutation of one `refresh_trending` iteration (lines 93-94):
only the baseline register is written; `recent_ema` is never touched. -/
def refreshStateUpd (agg : List (String × (Nat × Option String))) (c : Company)
    (st : DetectorState) : DetectorState :=
  { baseline :=
      dictSetG st.baseline c.name
        ((1 - alphaBase) * preBase st c.name + alphaBase * rawOf agg c.name)
    recentEma := st.recentEma }

/-- The per-company loop of `refresh_trending`. -/
def refreshLoop (agg : List (String × (Nat × Option String))) (ts : String) :
    List Company → DetectorState → List ScoreResult × DetectorState
  | [], st => ([], st)
  | c :: cs, st =>
    let r :=
      ((if refreshIncl agg st c then some (refreshEntryOf agg ts st c) else none :
          Option ScoreResult),
        refreshStateUpd agg c st)
    let rest := refreshLoop agg ts cs r.2
    (r.1.toList ++ rest.1, rest.2)

/-- `app/main.py` `refresh_trending` (lines 72-117): re-runs aggregation with
the same `_count_mentions` logic, scores every company with the raw-count
formulas, sorts, and produces `(latest_scores, all_trending_scores, state)`
where the latest view is the first 20 rows of the full view. -/
def refreshTrending (roster : List Company) (st : DetectorState) (titles : List String)
    (ts : String) : List ScoreResult × List ScoreResult × DetectorState :=
  let agg := aggCounts roster titles
  let r := refreshLoop agg ts roster st
  ((pySortResults r.1).take 20, pySortResults r.1, r.2)

/-- JSON-shaped Python values handed to the `TrendingDetector` constructor as
`baseline_state` (output of `json.load`, or `None`). -/
inductive Json where
  | null
  | bool (b : Bool)
  | num (q : ℚ)
  | str (s : String)
  | arr (elems : List Json)
  | obj (entries : List (String × Json))

/-- Python truthiness of a JSON value (`if baseline_state`). -/
def pyTruthy : Json → Bool
  | .null => false
  | .bool b => b
  | .num q => q != 0
  | .str s => s != ""
  | .arr l => !l.isEmpty
  | .obj l => !l.isEmpty

/-- `isinstance(baseline_state, dict)`. -/
def isObj : Json → Bool
  | .obj _ => true
  | _ => false

/-- `d.get(k, default)` on a dict-shaped value. -/
def pyGet (j : Json) (k : String) (d : Json) : Json :=
  match j with
  | .obj l => (plookup l k).getD d
  | _ => d

/-- `v.items()`: succeeds only on a dict, otherwise Python raises
`AttributeError`. -/
def pyItems : Json → Except String (List (String × Json))
  | .obj l => .ok l
  | _ => .error "AttributeError"

/-- Parse an unsigned decimal literal (digits with an optional fraction part),
used to model `float()` on strings. Exotic accepted spellings (exponents,
`inf`, `nan`, underscores) are not modelled; no theorem below depends on
string-valued state entries. -/
def parseUnsignedDec (l : List Char) : Option ℚ :=
  let i := l.takeWhile (fun c => c ≠ '.')
  let rest := l.drop i.length
  match rest with
  | [] =>
    if i ≠ [] && i.all Char.isDigit then
      some ((i.foldl (fun n c => n * 10 + (c.toNat - '0'.toNat)) 0 : Nat) : ℚ)
    else none
  | _ :: f =>
    if (i ++ f) ≠ [] && i.all Char.isDigit && f.all Char.isDigit then
      some (((i.foldl (fun n c => n * 10 + (c.toNat - '0'.toNat)) 0 : Nat) : ℚ)
        + ((f.foldl (fun n c => n * 10 + (c.toNat - '0'.toNat)) 0 : Nat) : ℚ)
          / ((10 : ℚ) ^ f.length))
    else none

/-- Signed decimal literal with surrounding whitespace, as `float()` trims. -/
def parseDec (s : String) : Option ℚ :=
  match s.trim.data with
  | '+' :: rest => parseUnsignedDec rest
  | '-' :: rest => (parseUnsignedDec rest).map Neg.neg
  | l => parseUnsignedDec l

/-- Python `float(v)` on a JSON value: numbers and booleans convert, numeric
strings parse (`ValueError` otherwise), everything else raises `TypeError`. -/
def pyFloat : Json → Except String ℚ
  | .num q => .ok q
  | .bool b => .ok (if b then 1 else 0)
  | .str s =>
    match parseDec s with
    | some q => .ok q
    | none => .error "ValueError"
  | _ => .error "TypeError"

/-- `{k: float(v) for k, v in items}`: convert entries in order, propagating
the first exception. -/
def floatEntries : List (String × Json) → Except String (List (String × ℚ))
  | [] => .ok []
  | e :: rest =>
    match pyFloat e.2 with
    | .error msg => .error msg
    | .ok q =>
      match floatEntries rest with
      | .error msg => .error msg
      | .ok tail => .ok ((e.1, q) :: tail)

/-- `{k: float(v) for k, v in j.items()}`. -/
def floatDict (j : Json) : Except String (List (String × ℚ)) :=
  match pyItems j with
  | .error msg => .error msg
  | .ok es => floatEntries es

/-- The state-restore logic of `TrendingDetector.__init__` (lines 53-58):
start from empty registers; when `baseline_state` is a truthy dict, rebuild
both registers with `float()` conversions, letting any conversion error
escape to the caller. -/
def restoreState (baselineState : Json) : Except String DetectorState :=
  if pyTruthy baselineState && isObj baselineState then
    match floatDict (pyGet baselineState "baseline" (Json.obj [])) with
    | .error msg => .error msg
    | .ok b =>
      match floatDict (pyGet baselineState "recent_ema" (Json.obj [])) with
      | .error msg => .error msg
      | .ok r => .ok ⟨b, r⟩
  else .ok ⟨[], []⟩

/-- `TrendingDetector.serialize_state` (lines 149-153). -/
def serializeState (st : DetectorState) : Json :=
  .obj
    [("baseline", .obj (st.baseline.map (fun e => (e.1, Json.num e.2)))),
      ("recent_ema", .obj (st.recentEma.map (fun e => (e.1, Json.num e.2))))]

/-! ### Association-list lemmas -/

theorem plookup_dictSetG_self {β : Type} (d : List (String × β)) (k : String) (v : β) :
    plookup (dictSetG d k v) k = some v := by
  induction d with
  | nil => simp [dictSetG, plookup]
  | cons e rest ih =>
    by_cases h : e.1 = k
    · simp [dictSetG, h, plookup]
    · simp [dictSetG, h, plookup, ih]

theorem plookup_dictSetG_ne {β : Type} (d : List (String × β)) (k k' : String) (v : β)
    (h : k' ≠ k) : plookup (dictSetG d k v) k' = plookup d k' := by
  induction d with
  | nil =>
    simp only [dictSetG, plookup]
    rw [if_neg (fun hh => h hh.symm)]
  | cons e rest ih =>
    by_cases he : e.1 = k
    · simp only [dictSetG, if_pos he, plookup]
      rw [if_neg (fun hh : e.1 = k' => h (he ▸ hh).symm), if_neg (fun hh : e.1 = k' => h (he ▸ hh).symm)]
    · simp only [dictSetG, if_neg he, plookup]
      by_cases he' : e.1 = k'
      · rw [if_pos he', if_pos he']
      · rw [if_neg he', if_neg he', ih]

theorem plookup_mem {β : Type} {d : List (String × β)} {n : String} {v : β}
    (h : plookup d n = some v) : (n, v) ∈ d := by
  induction d with
  | nil => simp [plookup] at h
  | cons e rest ih =>
    by_cases he : e.1 = n
    · simp only [plookup, if_pos he] at h
      obtain rfl : v = e.2 := (Option.some.inj h).symm
      subst he
      exact List.mem_cons_self _ _
    · simp only [plookup, if_neg he] at h
      exact List.mem_cons_of_mem _ (ih h)

theorem plookup_eq_none {β : Type} {d : List (String × β)} {n : String}
    (h : n ∉ d.map Prod.fst) : plookup d n = none := by
  induction d with
  | nil => rfl
  | cons e rest ih =>
    simp only [List.map_cons, List.mem_cons] at h
    push_neg at h
    rw [plookup, if_neg (fun hh : e.1 = n => h.1 hh.symm)]
    exact ih h.2

/-- Keys of the assoc lists we build: `nodupKeys` holds for every Python dict. -/
def nodupKeys {β : Type} (d : List (String × β)) : Prop := (d.map Prod.fst).Nodup

theorem mem_keys_dictSetG {β : Type} {d : List (String × β)} {k x : String} {v : β}
    (h : x ∈ (dictSetG d k v).map Prod.fst) : x ∈ d.map Prod.fst ∨ x = k := by
  induction d with
  | nil => simpa [dictSetG] using h
  | cons e rest ih =>
    by_cases he : e.1 = k
    · simp only [dictSetG, if_pos he, List.map_cons, List.mem_cons] at h ⊢
      tauto
    · simp only [dictSetG, if_neg he, List.map_cons, List.mem_cons] at h ⊢
      rcases h with h | h
      · tauto
      · rcases ih h with h' | h' <;> tauto

theorem nodupKeys_dictSetG {β : Type} {d : List (String × β)} (k : String) (v : β)
    (h : nodupKeys d) : nodupKeys (dictSetG d k v) := by
  induction d with
  | nil => simp [nodupKeys, dictSetG]
  | cons e rest ih =>
    rw [nodupKeys, List.map_cons, List.nodup_cons] at h
    by_cases he : e.1 = k
    · rw [nodupKeys, dictSetG, if_pos he, List.map_cons, List.nodup_cons]
      exact ⟨h.1, h.2⟩
    · rw [nodupKeys, dictSetG, if_neg he, List.map_cons, List.nodup_cons]
      refine ⟨fun hmem => ?_, ih h.2⟩
      rcases mem_keys_dictSetG hmem with h' | h'
      · exact h.1 h'
      · exact he h'

theorem nodupKeys_countMentions (roster : List Company) (text : List Char) :
    nodupKeys (countMentions roster text) := by
  suffices h : ∀ (rs : List Company) (acc : List (String × (Nat × Option String))),
      nodupKeys acc →
      nodupKeys (rs.foldl
        (fun acc c =>
          let r := countCompanyMentions c text
          if 0 < r.1 then dictSetG acc c.name r else acc) acc) by
    exact h roster [] (by simp [nodupKeys])
  intro rs
  induction rs with
  | nil => intro acc hacc; exact hacc
  | cons c cs ih =>
    intro acc hacc
    simp only [List.foldl_cons]
    apply ih
    by_cases hc : 0 < (countCompanyMentions c text).1
    · simpa [hc] using nodupKeys_dictSetG c.name _ hacc
    · simpa [hc] using hacc

/-! ### Congruence lemmas: each per-company quantity reads the state only at
that company's own key. -/

theorem preBase_congr {st st' : DetectorState} {n : String}
    (hb : plookup st'.baseline n = plookup st.baseline n) :
    preBase st' n = preBase st n := by
  unfold preBase; rw [hb]

theorem smoothedOf_congr {st st' : DetectorState}
    {agg : List (String × (Nat × Option String))} {n : String}
    (hr : plookup st'.recentEma n = plookup st.recentEma n) :
    smoothedOf st' agg n = smoothedOf st agg n := by
  unfold smoothedOf prevRec; rw [hr]

theorem liftOf_congr {st st' : DetectorState}
    {agg : List (String × (Nat × Option String))} {n : String}
    (hb : plookup st'.baseline n = plookup st.baseline n)
    (hr : plookup st'.recentEma n = plookup st.recentEma n) :
    liftOf st' agg n = liftOf st agg n := by
  unfold liftOf; rw [smoothedOf_congr hr, preBase_congr hb]

theorem newBaseOf_congr {st st' : DetectorState}
    {agg : List (String × (Nat × Option String))} {n : String}
    (hb : plookup st'.baseline n = plookup st.baseline n)
    (hr : plookup st'.recentEma n = plookup st.recentEma n) :
    newBaseOf st' agg n = newBaseOf st agg n := by
  unfold newBaseOf; rw [smoothedOf_congr hr, preBase_congr hb]

theorem entryOf_congr {st st' : DetectorState}
    {agg : List (String × (Nat × Option String))} {ts : String} {c : Company}
    (hb : plookup st'.baseline c.name = plookup st.baseline c.name)
    (hr : plookup st'.recentEma c.name = plookup st.recentEma c.name) :
    entryOf agg ts st' c = entryOf agg ts st c := by
  unfold entryOf
  rw [smoothedOf_congr hr, preBase_congr hb, liftOf_congr hb hr]

theorem includeCond_congr {st st' : DetectorState}
    {agg : List (String × (Nat × Option String))} {c : Company}
    (hb : plookup st'.baseline c.name = plookup st.baseline c.name)
    (hr : plookup st'.recentEma c.name = plookup st.recentEma c.name) :
    includeCond agg st' c ↔ includeCond agg st c := by
  unfold includeCond; rw [liftOf_congr hb hr]

theorem stateUpd_lookup_ne (st : DetectorState)
    (agg : List (String × (Nat × Option String))) (c : Company) {n : String}
    (h : n ≠ c.name) :
    plookup (stateUpd agg c st).baseline n = plookup st.baseline n ∧
      plookup (stateUpd agg c st).recentEma n = plookup st.recentEma n := by
  unfold stateUpd
  exact ⟨plookup_dictSetG_ne _ _ _ _ h, plookup_dictSetG_ne _ _ _ _ h⟩

/-! ### Characterizing the per-company loop of `score_titles` -/

theorem name_ne_of_not_mem {c c' : Company} {cs : List Company}
    (h : c.name ∉ cs.map Company.name) (hc' : c' ∈ cs) : c'.name ≠ c.name := by
  intro he
  exact h (he ▸ List.mem_map_of_mem Company.name hc')

/-- With distinct company names, every iteration of the loop sees the original
register values at its own key, so the produced rows are exactly the included
companies' rows computed from the pre-call state. -/
theorem scoreLoop_results (agg : List (String × (Nat × Option String))) (ts : String) :
    ∀ (roster : List Company) (st : DetectorState),
      (roster.map Company.name).Nodup →
      (scoreLoop agg ts roster st).1 =
        roster.filterMap
          (fun c => if includeCond agg st c then some (entryOf agg ts st c) else none) := by
  intro roster
  induction roster with
  | nil => intro st _; rfl
  | cons c cs ih =>
    intro st h
    rw [List.map_cons, List.nodup_cons] at h
    have hrest := ih (stateUpd agg c st) h.2
    have hcong :
        cs.filterMap
            (fun c' =>
              if includeCond agg (stateUpd agg c st) c' then
                some (entryOf agg ts (stateUpd agg c st) c')
              else none) =
          cs.filterMap
            (fun c' => if includeCond agg st c' then some (entryOf agg ts st c') else none) := by
      apply List.filterMap_congr
      intro c' hc'
      have hne := name_ne_of_not_mem h.1 hc'
      have hl := stateUpd_lookup_ne st agg c hne
      rw [entryOf_congr hl.1 hl.2]
      by_cases hic : includeCond agg st c'
      · rw [if_pos hic, if_pos ((includeCond_congr hl.1 hl.2).mpr hic)]
      · rw [if_neg hic, if_neg (fun hh => hic ((includeCond_congr hl.1 hl.2).mp hh))]
    show (stepCompany agg ts c st).1.toList ++ (scoreLoop agg ts cs (stepCompany agg ts c st).2).1 = _
    rw [List.filterMap_cons]
    by_cases hic : includeCond agg st c
    · simp only [stepCompany, if_pos hic, Option.toList_some]
      rw [hrest, hcong]
      rfl
    · simp only [stepCompany, if_neg hic, Option.toList_none, List.nil_append]
      rw [hrest, hcong]

/-- The loop never touches registers of names outside the roster. -/
theorem scoreLoop_state_stable (agg : List (String × (Nat × Option String))) (ts : String) :
    ∀ (roster : List Company) (st : DetectorState) (n : String),
      n ∉ roster.map Company.name →
      plookup (scoreLoop agg ts roster st).2.baseline n = plookup st.baseline n ∧
        plookup (scoreLoop agg ts roster st).2.recentEma n = plookup st.recentEma n := by
  intro roster
  induction roster with
  | nil => intro st n _; exact ⟨rfl, rfl⟩
  | cons c cs ih =>
    intro st n h
    rw [List.map_cons, List.mem_cons] at h
    push_neg at h
    have h1 := ih (stateUpd agg c st) n h.2
    have h2 := stateUpd_lookup_ne st agg c h.1
    exact ⟨h1.1.trans h2.1, h1.2.trans h2.2⟩

/-- After the loop, with distinct names, each roster company's registers hold
exactly the values computed by the update formulas from the pre-call state. -/
theorem scoreLoop_state_mem (agg : List (String × (Nat × Option String))) (ts : String) :
    ∀ (roster : List Company) (st : DetectorState) (c : Company),
      (roster.map Company.name).Nodup → c ∈ roster →
      plookup (scoreLoop agg ts roster st).2.baseline c.name =
          some (newBaseOf st agg c.name) ∧
        plookup (scoreLoop agg ts roster st).2.recentEma c.name =
          some (smoothedOf st agg c.name) := by
  intro roster
  induction roster with
  | nil => intro st c _ hc; exact absurd hc (List.not_mem_nil c)
  | cons c0 cs ih =>
    intro st c h hc
    rw [List.map_cons, List.nodup_cons] at h
    rcases List.mem_cons.mp hc with rfl | hc'
    · have hst := scoreLoop_state_stable agg ts cs (stateUpd agg c st) c.name h.1
      constructor
      · rw [show (scoreLoop agg ts (c :: cs) st).2 = (scoreLoop agg ts cs (stateUpd agg c st)).2 from rfl,
          hst.1]
        exact plookup_dictSetG_self _ _ _
      · rw [show (scoreLoop agg ts (c :: cs) st).2 = (scoreLoop agg ts cs (stateUpd agg c st)).2 from rfl,
          hst.2]
        exact plookup_dictSetG_self _ _ _
    · have hne := name_ne_of_not_mem h.1 hc'
      have hl := stateUpd_lookup_ne st agg c0 hne
      have hrec := ih (stateUpd agg c0 st) c h.2 hc'
      refine ⟨?_, ?_⟩
      · rw [show (scoreLoop agg ts (c0 :: cs) st).2 = (scoreLoop agg ts cs (stateUpd agg c0 st)).2 from rfl,
          hrec.1, newBaseOf_congr hl.1 hl.2]
      · rw [show (scoreLoop agg ts (c0 :: cs) st).2 = (scoreLoop agg ts cs (stateUpd agg c0 st)).2 from rfl,
          hrec.2, smoothedOf_congr hl.2]

/-! ### Nonnegativity of the EMA registers -/

/-- All values of a register map are nonnegative. -/
def nonnegVals (d : List (String × ℚ)) : Prop := ∀ p ∈ d, 0 ≤ p.2

theorem nonnegVals_dictSetG {d : List (String × ℚ)} {k : String} {v : ℚ}
    (h : nonnegVals d) (hv : 0 ≤ v) : nonnegVals (dictSetG d k v) := by
  induction d with
  | nil =>
    intro p hp
    simp only [dictSetG, List.mem_singleton] at hp
    rw [hp]
    exact hv
  | cons e rest ih =>
    intro p hp
    by_cases he : e.1 = k
    · rw [dictSetG, if_pos he] at hp
      rcases List.mem_cons.mp hp with rfl | hp'
      · exact hv
      · exact h p (List.mem_cons_of_mem _ hp')
    · rw [dictSetG, if_neg he] at hp
      rcases List.mem_cons.mp hp with rfl | hp'
      · exact h p (List.mem_cons_self _ _)
      · exact ih (fun q hq => h q (List.mem_cons_of_mem _ hq)) p hp'

theorem plookup_getD_nonneg {d : List (String × ℚ)} {n : String} {dflt : ℚ}
    (h : nonnegVals d) (hd : 0 ≤ dflt) : 0 ≤ (plookup d n).getD dflt := by
  cases hq : plookup d n with
  | none => simpa using hd
  | some q => simpa using h (n, q) (plookup_mem hq)

theorem rawOf_nonneg (agg : List (String × (Nat × Option String))) (n : String) :
    0 ≤ rawOf agg n := by
  unfold rawOf
  cases plookup agg n with
  | none => simp
  | some e => simp

theorem smoothedOf_nonneg {st : DetectorState}
    (agg : List (String × (Nat × Option String))) (n : String)
    (hr : nonnegVals st.recentEma) : 0 ≤ smoothedOf st agg n := by
  have h1 : 0 ≤ prevRec st n (rawOf agg n) :=
    plookup_getD_nonneg hr (rawOf_nonneg agg n)
  have h2 := rawOf_nonneg agg n
  unfold smoothedOf recentAlpha
  nlinarith

theorem newBaseOf_nonneg {st : DetectorState}
    (agg : List (String × (Nat × Option String))) (n : String)
    (hb : nonnegVals st.baseline) (hr : nonnegVals st.recentEma) :
    0 ≤ newBaseOf st agg n := by
  have h1 : 0 ≤ preBase st n := plookup_getD_nonneg hb le_rfl
  have h2 := smoothedOf_nonneg agg n hr
  unfold newBaseOf alphaBase
  nlinarith

theorem scoreLoop_nonneg (agg : List (String × (Nat × Option String))) (ts : String) :
    ∀ (roster : List Company) (st : DetectorState),
      nonnegVals st.baseline → nonnegVals st.recentEma →
      nonnegVals (scoreLoop agg ts roster st).2.baseline ∧
        nonnegVals (scoreLoop agg ts roster st).2.recentEma := by
  intro roster
  induction roster with
  | nil => intro st hb hr; exact ⟨hb, hr⟩
  | cons c cs ih =>
    intro st hb hr
    exact ih (stateUpd agg c st)
      (nonnegVals_dictSetG hb (newBaseOf_nonneg agg c.name hb hr))
      (nonnegVals_dictSetG hr (smoothedOf_nonneg agg c.name hr))

/-! ### First-matcher-wins label selection -/

/-- Index of the first pattern (in declared order, starting from `i`) with at
least one match — the reference formulation the loop is compared against. -/
def firstIdxFrom (text : List Char) : Nat → List Pat → Option Nat
  | _, [] => none
  | i, p :: ps => if 0 < countPat text p then some i else firstIdxFrom text (i + 1) ps

theorem mentionsLoop_sticky (c : Company) (text : List Char) :
    ∀ (ps : List Pat) (i t : Nat) (a : String),
      (mentionsLoop c text ps i (t, some a)).2 = some a := by
  intro ps
  induction ps with
  | nil => intro i t a; rfl
  | cons p ps ih =>
    intro i t a
    rw [mentionsLoop]
    by_cases h : 0 < countPat text p
    · simpa [h] using ih (i + 1) (t + countPat text p) a
    · simpa [h] using ih (i + 1) t a

theorem compileCompany_length (c : Company) :
    (compileCompany c).length =
      1 + c.aliases.length + (match c.ticker with | some _ => 1 | none => 0) := by
  cases h : c.ticker <;> simp [compileCompany, h] <;> omega

theorem labelOfCompany_isSome (c : Company) (i : Nat)
    (h : i < (compileCompany c).length) : (labelOfCompany c i).isSome := by
  rw [compileCompany_length] at h
  unfold labelOfCompany
  by_cases h0 : i = 0
  · simp [h0]
  · rw [if_neg h0]
    by_cases h1 : i - 1 < c.aliases.length
    · simp [h1]
    · rw [dif_neg h1]
      cases ht : c.ticker with
      | none =>
        rw [ht] at h
        simp only at h
        omega
      | some t =>
        rw [ht] at h
        simp only at h
        have : i = c.aliases.length + 1 := by omega
        simp [this]

theorem mentionsLoop_alias_char (c : Company) (text : List Char) :
    ∀ (ps : List Pat) (i t : Nat),
      (∀ j, j < ps.length → (labelOfCompany c (i + j)).isSome) →
      (mentionsLoop c text ps i (t, none)).2 =
        (firstIdxFrom text i ps).bind (labelOfCompany c) := by
  intro ps
  induction ps with
  | nil => intro i t _; rfl
  | cons p ps ih =>
    intro i t hv
    by_cases h : 0 < countPat text p
    · have h0 : (labelOfCompany c i).isSome := by
        simpa using hv 0 (by simp)
      obtain ⟨a, ha⟩ := Option.isSome_iff_exists.mp h0
      rw [mentionsLoop]
      simp only [h, if_pos, ha]
      rw [firstIdxFrom, if_pos h]
      simpa [ha] using mentionsLoop_sticky c text ps (i + 1) (t + countPat text p) a
    · rw [mentionsLoop]
      simp only [h, if_neg, ite_false]
      rw [firstIdxFrom, if_neg h]
      exact ih (i + 1) t (fun j hj => by
        have := hv (j + 1) (by simpa using Nat.succ_lt_succ hj)
        simpa [Nat.add_assoc, Nat.add_comm 1 j] using this)

/-- The label recorded by `_count_mentions` is the label of the first matcher
(in declared order) that matched. -/
theorem countCompanyMentions_alias (c : Company) (text : List Char) :
    (countCompanyMentions c text).2 =
      (firstIdxFrom text 0 (compileCompany c)).bind (labelOfCompany c) := by
  unfold countCompanyMentions
  exact mentionsLoop_alias_char c text (compileCompany c) 0 0
    (fun j hj => by simpa using labelOfCompany_isSome c j (by simpa using hj))

theorem labelOfCompany_zero (c : Company) : labelOfCompany c 0 = some c.name := by
  simp [labelOfCompany]

theorem labelOfCompany_alias (c : Company) (i : Nat) (a : String)
    (h : c.aliases.get? i = some a) : labelOfCompany c (i + 1) = some a := by
  obtain ⟨hlt, hget⟩ := List.get?_eq_some.mp h
  unfold labelOfCompany
  rw [if_neg (Nat.succ_ne_zero i)]
  have h1 : i + 1 - 1 < c.aliases.length := by simpa using hlt
  rw [dif_pos h1]
  simpa using hget

theorem labelOfCompany_ticker (c : Company) (t : String) (h : c.ticker = some t) :
    labelOfCompany c (c.aliases.length + 1) = some ("$" ++ t) := by
  unfold labelOfCompany
  rw [if_neg (Nat.succ_ne_zero _), dif_neg (by omega), h]
  simp

/-! ### First non-empty label wins across the batch -/

theorem plookup_mergeEntry_self (agg : List (String × (Nat × Option String)))
    (e : String × (Nat × Option String)) :
    plookup (mergeEntry agg e) e.1 =
      some
        (match plookup agg e.1 with
         | some prev => (prev.1 + e.2.1, pyOr prev.2 e.2.2)
         | none => e.2) := by
  unfold mergeEntry
  cases h : plookup agg e.1 with
  | none => rw [plookup_dictSetG_self]
  | some prev => rw [plookup_dictSetG_self]

theorem plookup_mergeEntry_ne (agg : List (String × (Nat × Option String)))
    (e : String × (Nat × Option String)) (n : String) (h : n ≠ e.1) :
    plookup (mergeEntry agg e) n = plookup agg n := by
  unfold mergeEntry
  cases plookup agg e.1 with
  | none => exact plookup_dictSetG_ne _ _ _ _ h
  | some prev => exact plookup_dictSetG_ne _ _ _ _ h

/-- Effect of merging one per-text mapping (with unique keys) into the batch
aggregate, observed at one key. -/
theorem foldl_mergeEntry_plookup :
    ∀ (es agg : List (String × (Nat × Option String))) (n : String), nodupKeys es →
      plookup (es.foldl mergeEntry agg) n =
        match plookup es n with
        | some v =>
          some
            (match plookup agg n with
             | some prev => (prev.1 + v.1, pyOr prev.2 v.2)
             | none => v)
        | none => plookup agg n := by
  intro es
  induction es with
  | nil => intro agg n _; rfl
  | cons e es ih =>
    intro agg n hnd
    rw [nodupKeys, List.map_cons, List.nodup_cons] at hnd
    rw [List.foldl_cons, ih _ _ hnd.2]
    by_cases hn : e.1 = n
    · subst hn
      rw [plookup_eq_none hnd.1]
      show plookup (mergeEntry agg e) e.1 = _
      rw [plookup_mergeEntry_self]
      rw [show plookup (e :: es) e.1 = some e.2 from by rw [plookup, if_pos rfl]]
    · rw [show plookup (e :: es) n = plookup es n from by rw [plookup, if_neg hn]]
      cases plookup es n with
      | none => exact plookup_mergeEntry_ne agg e n (fun hh => hn hh.symm)
      | some v => rw [plookup_mergeEntry_ne agg e n (fun hh => hn hh.symm)]

/-- The per-title label contribution that the claim calls "non-empty":
the label recorded for company `n` in one title when it is truthy. -/
def truthyLabelIn (roster : List Company) (n : String) (title : String) : Option String :=
  match plookup (countMentions roster title.data) n with
  | some r =>
    match r.2 with
    | some s => if s = "" then none else some s
    | none => none
  | none => none

theorem pyOr_truthy {a : String} (b : Option String) (h : a ≠ "") :
    pyOr (some a) b = some a := by
  simp [pyOr, h]

theorem pyOr_falsy {a : Option String} (b : Option String)
    (h : a = none ∨ a = some "") : pyOr a b = b := by
  rcases h with rfl | rfl <;> simp [pyOr]

/-- One aggregation step (`mergeEntry` fold over one title's mapping) keeps a
truthy label untouched. -/
theorem aggStep_keeps_truthy {roster : List Company} {n a : String}
    {agg : List (String × (Nat × Option String))} (title : String)
    (h : aliasOf agg n = some a) (ha : a ≠ "") :
    aliasOf ((countMentions roster title.data).foldl mergeEntry agg) n = some a := by
  have hnd := nodupKeys_countMentions roster title.data
  obtain ⟨v0, hv0, hv0a⟩ : ∃ v0, plookup agg n = some v0 ∧ v0.2 = some a := by
    unfold aliasOf at h
    cases hagg : plookup agg n with
    | none => simp [hagg] at h
    | some v0 =>
      simp only [hagg, Option.map_some, Option.getD_some] at h
      exact ⟨v0, rfl, h⟩
  unfold aliasOf
  rw [foldl_mergeEntry_plookup _ _ _ hnd]
  cases hes : plookup (countMentions roster title.data) n with
  | none => simp [hv0, hv0a]
  | some v =>
    simp only [hv0, Option.map_some, Option.getD_some]
    rw [hv0a]
    exact pyOr_truthy _ ha

/-- One aggregation step maps a falsy stored label to the title's own label
contribution when the title mentions the company, and otherwise keeps it. -/
theorem aggStep_falsy {roster : List Company} {n : String}
    {agg : List (String × (Nat × Option String))} (title : String)
    (h : aliasOf agg n = none ∨ aliasOf agg n = some "") :
    aliasOf ((countMentions roster title.data).foldl mergeEntry agg) n =
      match plookup (countMentions roster title.data) n with
      | some v => v.2
      | none => aliasOf agg n := by
  have hnd := nodupKeys_countMentions roster title.data
  unfold aliasOf
  rw [foldl_mergeEntry_plookup _ _ _ hnd]
  cases hes : plookup (countMentions roster title.data) n with
  | none => rfl
  | some v =>
    cases hagg : plookup agg n with
    | none => simp
    | some prev =>
      have hfal : prev.2 = none ∨ prev.2 = some "" := by
        unfold aliasOf at h
        simp only [hagg, Option.map_some, Option.getD_some] at h
        exact h
      simp only [hagg, Option.map_some, Option.getD_some]
      exact pyOr_falsy _ hfal

/-- Once a truthy label is stored, no later title of the batch overwrites it. -/
theorem aggFold_keeps_truthy {roster : List Company} {n a : String} (ha : a ≠ "") :
    ∀ (ts : List String) (agg : List (String × (Nat × Option String))),
      aliasOf agg n = some a →
      aliasOf (ts.foldl
          (fun agg title => (countMentions roster title.data).foldl mergeEntry agg) agg) n =
        some a := by
  intro ts
  induction ts with
  | nil => intro agg h; exact h
  | cons t' ts' ih =>
    intro agg h
    rw [List.foldl_cons]
    exact ih _ (aggStep_keeps_truthy t' h ha)

theorem truthyLabelIn_some_elim {roster : List Company} {n t a : String}
    (h : truthyLabelIn roster n t = some a) :
    ∃ v, plookup (countMentions roster t.data) n = some v ∧ v.2 = some a ∧ a ≠ "" := by
  unfold truthyLabelIn at h
  cases hes : plookup (countMentions roster t.data) n with
  | none => simp [hes] at h
  | some v =>
    simp only [hes] at h
    cases hv : v.2 with
    | none => simp [hv] at h
    | some s =>
      simp only [hv] at h
      by_cases hs : s = ""
      · simp [hs] at h
      · simp only [if_neg hs] at h
        obtain rfl := Option.some.inj h
        exact ⟨v, rfl, hv, hs⟩

theorem truthyLabelIn_none_elim {roster : List Company} {n t : String}
    (h : truthyLabelIn roster n t = none) (v : Nat × Option String)
    (hes : plookup (countMentions roster t.data) n = some v) :
    v.2 = none ∨ v.2 = some "" := by
  unfold truthyLabelIn at h
  simp only [hes] at h
  cases hv : v.2 with
  | none => exact Or.inl rfl
  | some s =>
    simp only [hv] at h
    by_cases hs : s = ""
    · right
      rw [hs]
    · simp [if_neg hs] at h

/-- Across the batch, the first truthy per-title label is the one kept. -/
theorem aggCounts_alias_first :
    ∀ (titles : List String) (roster : List Company) (n a : String)
      (agg : List (String × (Nat × Option String))),
      (aliasOf agg n = none ∨ aliasOf agg n = some "") →
      List.findSome? (truthyLabelIn roster n) titles = some a →
      aliasOf (titles.foldl
          (fun agg title => (countMentions roster title.data).foldl mergeEntry agg) agg) n =
        some a := by
  intro titles
  induction titles with
  | nil => intro roster n a agg _ hfind; simp [List.findSome?] at hfind
  | cons t ts ih =>
    intro roster n a agg hfalsy hfind
    rw [List.findSome?_cons] at hfind
    rw [List.foldl_cons]
    cases ht : truthyLabelIn roster n t with
    | some a' =>
      simp only [ht] at hfind
      obtain rfl := Option.some.inj hfind
      obtain ⟨v, hes, hva, ha⟩ := truthyLabelIn_some_elim ht
      have hstep :
          aliasOf ((countMentions roster t.data).foldl mergeEntry agg) n = some a' := by
        rw [aggStep_falsy t hfalsy]
        simp only [hes]
        exact hva
      exact aggFold_keeps_truthy ha ts _ hstep
    | none =>
      simp only [ht] at hfind
      refine ih roster n a _ ?_ hfind
      rw [aggStep_falsy t hfalsy]
      cases hes : plookup (countMentions roster t.data) n with
      | none => exact hfalsy
      | some v => simpa using truthyLabelIn_none_elim ht v hes

/-! ### Clean-alias lemmas -/

theorem specials_ne_dollar : ∀ c ∈ specialChars, c ≠ '$' := by decide

theorem mem_dropWhile_of_ne {c ch : Char} :
    ∀ {l : List Char}, c ∈ l → c ≠ ch → c ∈ l.dropWhile (fun x => x = ch)
  | [], h, _ => absurd h (List.not_mem_nil c)
  | a :: t, h, hne => by
    by_cases ha : a = ch
    · rw [List.dropWhile_cons, if_pos (by simp [ha])]
      rcases List.mem_cons.mp h with rfl | h'
      · exact absurd ha hne
      · exact mem_dropWhile_of_ne h' hne
    · rw [List.dropWhile_cons, if_neg (by simp [ha])]
      exact h

theorem mem_stripChar {c ch : Char} {l : List Char} (h : c ∈ l) (hne : c ≠ ch) :
    c ∈ stripChar ch l := by
  unfold stripChar
  rw [List.mem_reverse]
  exact mem_dropWhile_of_ne (List.mem_reverse.mpr (mem_dropWhile_of_ne h hne)) hne

theorem mem_of_mem_dropWhile {c : Char} {p : Char → Bool} :
    ∀ {l : List Char}, c ∈ l.dropWhile p → c ∈ l
  | [], h => h
  | a :: t, h => by
    by_cases ha : p a
    · rw [List.dropWhile_cons, if_pos ha] at h
      exact List.mem_cons_of_mem _ (mem_of_mem_dropWhile h)
    · rwa [List.dropWhile_cons, if_neg ha] at h

theorem mem_of_mem_stripChar {c ch : Char} {l : List Char} (h : c ∈ stripChar ch l) :
    c ∈ l := by
  unfold stripChar at h
  rw [List.mem_reverse] at h
  exact mem_of_mem_dropWhile (List.mem_reverse.mp (mem_of_mem_dropWhile h))

theorem hasSpecial_iff {l : List Char} :
    hasSpecial l = true ↔ ∃ c ∈ l, c ∈ specialChars := by
  unfold hasSpecial
  rw [List.any_eq_true]
  constructor
  · rintro ⟨c, hc, hmem⟩
    exact ⟨c, hc, by simpa using hmem⟩
  · rintro ⟨c, hc, hmem⟩
    exact ⟨c, hc, by simpa using hmem⟩

theorem hasSpecial_stripChar {l : List Char} (h : hasSpecial l = true) :
    hasSpecial (stripChar '$' l) = true := by
  obtain ⟨c, hc, hmem⟩ := hasSpecial_iff.mp h
  exact hasSpecial_iff.mpr ⟨c, mem_stripChar hc (specials_ne_dollar c hmem), hmem⟩

theorem hasSpecial_stripChar_rev {l : List Char}
    (h : hasSpecial (stripChar '$' l) = true) : hasSpecial l = true := by
  obtain ⟨c, hc, hmem⟩ := hasSpecial_iff.mp h
  exact hasSpecial_iff.mpr ⟨c, mem_of_mem_stripChar hc, hmem⟩

/-! ### Serialize/restore round trip -/

theorem floatEntries_map_num (l : List (String × ℚ)) :
    floatEntries (l.map (fun e => (e.1, Json.num e.2))) = .ok l := by
  induction l with
  | nil => rfl
  | cons e rest ih => simp [floatEntries, pyFloat, ih]

theorem restoreState_serializeState (st : DetectorState) :
    restoreState (serializeState st) = Except.ok st := by
  show restoreState
      (Json.obj
        [("baseline", Json.obj (st.baseline.map (fun e => (e.1, Json.num e.2)))),
          ("recent_ema", Json.obj (st.recentEma.map (fun e => (e.1, Json.num e.2))))]) =
    Except.ok st
  rw [restoreState]
  rw [if_pos (by rfl)]
  have h1 :
      pyGet
          (Json.obj
            [("baseline", Json.obj (st.baseline.map (fun e => (e.1, Json.num e.2)))),
              ("recent_ema", Json.obj (st.recentEma.map (fun e => (e.1, Json.num e.2))))])
          "baseline" (Json.obj []) =
        Json.obj (st.baseline.map (fun e => (e.1, Json.num e.2))) := rfl
  have h2 :
      pyGet
          (Json.obj
            [("baseline", Json.obj (st.baseline.map (fun e => (e.1, Json.num e.2)))),
              ("recent_ema", Json.obj (st.recentEma.map (fun e => (e.1, Json.num e.2))))])
          "recent_ema" (Json.obj []) =
        Json.obj (st.recentEma.map (fun e => (e.1, Json.num e.2))) := rfl
  rw [h1, h2]
  simp [floatDict, pyItems, floatEntries_map_num]

/-! ## Claim theorems -/

/-- C1 (amended). On every scoring call, for every company in the roster
(names distinct), the engine updates `recent_ema` to
`(1 - 0.5) * prev + 0.5 * raw_recent` and then `baseline` to
`(1 - 0.3) * prev_baseline + 0.3 * smoothed_recent`, where an unset `baseline`
register counts as 0.0 but an unset `recent_ema` register counts as
`raw_recent` (so the first call differs from a register pre-existing at 0.0
whenever `raw_recent > 0`); a company with `recent_ema = 10.0` and zero
mentions still ends with `recent_ema = 5.0`. -/
theorem C1_ema_update (roster : List Company) (st : DetectorState)
    (titles : List String) (ts : String) (c : Company) (hmem : c ∈ roster)
    (hnd : (roster.map Company.name).Nodup) :
    plookup (scoreTitles roster st titles ts).2.recentEma c.name =
        some ((1 - 1/2) * prevRec st c.name (rawOf (aggCounts roster titles) c.name)
          + (1/2) * rawOf (aggCounts roster titles) c.name)
      ∧ plookup (scoreTitles roster st titles ts).2.baseline c.name =
        some ((1 - 3/10) * preBase st c.name
          + (3/10) * smoothedOf st (aggCounts roster titles) c.name)
      ∧ prevRec ⟨[], []⟩ c.name (rawOf (aggCounts roster titles) c.name) =
        rawOf (aggCounts roster titles) c.name
      ∧ preBase ⟨[], []⟩ c.name = 0 := by
  have h := scoreLoop_state_mem (aggCounts roster titles) ts roster st c hnd hmem
  refine ⟨?_, ?_, rfl, rfl⟩
  · rw [show (scoreTitles roster st titles ts).2 =
        (scoreLoop (aggCounts roster titles) ts roster st).2 from rfl, h.2]
    rfl
  · rw [show (scoreTitles roster st titles ts).2 =
        (scoreLoop (aggCounts roster titles) ts roster st).2 from rfl, h.1]
    rfl

/-- C1 counterexample. The claim says an unset `recent_ema` register counts
as 0.0 and that the first call behaves identically whether the register
pre-existed at 0.0 or was unset: on a one-company roster with one mention,
the unset register yields `recent_ema = 1`, while a register pre-existing at
0.0 yields `1/2`, refuting both. -/
theorem C1_counterexample :
    plookup (scoreTitles [⟨"A", none, []⟩] ⟨[], []⟩ ["A"] "t").2.recentEma "A" = some 1
  ∧ plookup (scoreTitles [⟨"A", none, []⟩] ⟨[], [("A", 0)]⟩ ["A"] "t").2.recentEma "A"
      = some (1/2)
  ∧ (1 : ℚ) ≠ 1/2 := by
  have hagg : plookup (aggCounts [⟨"A", none, []⟩] ["A"]) "A" = some (1, some "A") := by
    decide
  have hraw : rawOf (aggCounts [⟨"A", none, []⟩] ["A"]) "A" = 1 := by
    rw [rawOf, hagg]
    norm_num
  refine ⟨?_, ?_, by norm_num⟩
  · have h := (scoreLoop_state_mem (aggCounts [⟨"A", none, []⟩] ["A"]) "t"
      [⟨"A", none, []⟩] ⟨[], []⟩ ⟨"A", none, []⟩ (by simp) (by simp)).2
    rw [show (scoreTitles [⟨"A", none, []⟩] ⟨[], []⟩ ["A"] "t").2 =
      (scoreLoop (aggCounts [⟨"A", none, []⟩] ["A"]) "t" [⟨"A", none, []⟩] ⟨[], []⟩).2
      from rfl, h]
    rw [show (⟨"A", none, []⟩ : Company).name = "A" from rfl, smoothedOf, hraw]
    have hprev : prevRec ⟨[], []⟩ "A" 1 = 1 := rfl
    rw [hprev, recentAlpha]
    norm_num
  · have h := (scoreLoop_state_mem (aggCounts [⟨"A", none, []⟩] ["A"]) "t"
      [⟨"A", none, []⟩] ⟨[], [("A", 0)]⟩ ⟨"A", none, []⟩ (by simp) (by simp)).2
    rw [show (scoreTitles [⟨"A", none, []⟩] ⟨[], [("A", 0)]⟩ ["A"] "t").2 =
      (scoreLoop (aggCounts [⟨"A", none, []⟩] ["A"]) "t" [⟨"A", none, []⟩]
        ⟨[], [("A", 0)]⟩).2 from rfl, h]
    rw [show (⟨"A", none, []⟩ : Company).name = "A" from rfl, smoothedOf, hraw]
    have hprev : prevRec ⟨[], [("A", 0)]⟩ "A" 1 = 0 := rfl
    rw [hprev, recentAlpha]
    norm_num

/-- C1 witness: a company with `recent_ema = 10.0` and zero mentions in the
batch ends with `recent_ema = 5.0`. -/
theorem C1_witness :
    plookup (scoreTitles [⟨"Acme", none, []⟩] ⟨[], [("Acme", 10)]⟩ [] "t").2.recentEma
      "Acme" = some 5 := by
  have h := (C1_ema_update [⟨"Acme", none, []⟩] ⟨[], [("Acme", 10)]⟩ [] "t"
    ⟨"Acme", none, []⟩ (by simp) (by simp)).1
  rw [h]
  have hraw : rawOf (aggCounts [⟨"Acme", none, []⟩] []) "Acme" = 0 := rfl
  rw [show (⟨"Acme", none, []⟩ : Company).name = "Acme" from rfl, hraw]
  have hprev : prevRec ⟨[], [("Acme", 10)]⟩ "Acme" 0 = 10 := rfl
  rw [hprev]
  norm_num

/-- C3. On every scoring call (distinct names), a company is in the full
result set iff `raw_recent > 0` or `lift > 1.2`, where
`lift = (smoothed_recent + 1.0) / (pre-update baseline + 1.0)`. -/
theorem C3_inclusion (roster : List Company) (st : DetectorState)
    (titles : List String) (ts : String) (c : Company) (hmem : c ∈ roster)
    (hnd : (roster.map Company.name).Nodup) :
    ((∃ r ∈ (scoreAllTitles roster st titles ts).1, r.name = c.name) ↔
        (0 < rawOf (aggCounts roster titles) c.name
          ∨ 6/5 < liftOf st (aggCounts roster titles) c.name))
  ∧ liftOf st (aggCounts roster titles) c.name =
      (smoothedOf st (aggCounts roster titles) c.name + 1) / (preBase st c.name + 1) := by
  refine ⟨?_, rfl⟩
  have hres := scoreLoop_results (aggCounts roster titles) ts roster st hnd
  have hperm :
      List.Perm (scoreAllTitles roster st titles ts).1
        (scoreLoop (aggCounts roster titles) ts roster st).1 :=
    List.perm_insertionSort keyGE _
  constructor
  · rintro ⟨r, hrmem, hrname⟩
    have hr2 := hperm.mem_iff.mp hrmem
    rw [hres] at hr2
    obtain ⟨c', hc', hcr⟩ := List.mem_filterMap.mp hr2
    by_cases hic : includeCond (aggCounts roster titles) st c'
    · rw [if_pos hic] at hcr
      obtain rfl := Option.some.inj hcr
      have hname : c'.name = c.name := hrname
      have hcc : c' = c := List.inj_on_of_nodup_map hnd hc' hmem hname
      subst hcc
      exact hic
    · rw [if_neg hic] at hcr
      exact absurd hcr (by simp)
  · intro hcond
    have hin : includeCond (aggCounts roster titles) st c := hcond
    refine ⟨entryOf (aggCounts roster titles) ts st c, ?_, rfl⟩
    apply hperm.mem_iff.mpr
    rw [hres]
    exact List.mem_filterMap.mpr ⟨c, hmem, by rw [if_pos hin]⟩

/-- C3 witness: a company with zero baseline, zero `recent_ema` and zero
mentions has lift 1.0 and is excluded; a company with one raw mention is
included. -/
theorem C3_witness :
    (¬ ∃ r ∈ (scoreAllTitles [⟨"A", none, []⟩] ⟨[], []⟩ [] "t").1, r.name = "A")
  ∧ (∃ r ∈ (scoreAllTitles [⟨"A", none, []⟩] ⟨[], []⟩ ["A"] "t").1, r.name = "A") := by
  constructor
  · intro hex
    have h := (C3_inclusion [⟨"A", none, []⟩] ⟨[], []⟩ [] "t" ⟨"A", none, []⟩
      (by simp) (by simp)).1
    have hc := h.mp hex
    have hraw : rawOf (aggCounts [⟨"A", none, []⟩] []) "A" = 0 := rfl
    have hlift : liftOf ⟨[], []⟩ (aggCounts [⟨"A", none, []⟩] []) "A" = 1 := by
      rw [liftOf]
      have hsm : smoothedOf ⟨[], []⟩ (aggCounts [⟨"A", none, []⟩] []) "A" = 0 := by
        rw [smoothedOf, hraw]
        have hprev : prevRec ⟨[], []⟩ "A" 0 = 0 := rfl
        rw [hprev, recentAlpha]
        norm_num
      have hpb : preBase ⟨[], []⟩ "A" = 0 := rfl
      rw [hsm, hpb]
      norm_num
    rw [show (⟨"A", none, []⟩ : Company).name = "A" from rfl, hraw, hlift] at hc
    rcases hc with hc | hc
    · exact absurd hc (by norm_num)
    · exact absurd hc (by norm_num)
  · refine (C3_inclusion [⟨"A", none, []⟩] ⟨[], []⟩ ["A"] "t" ⟨"A", none, []⟩
      (by simp) (by simp)).1.mpr (Or.inl ?_)
    have hagg : plookup (aggCounts [⟨"A", none, []⟩] ["A"]) "A" = some (1, some "A") := by
      decide
    rw [show (⟨"A", none, []⟩ : Company).name = "A" from rfl, rawOf, hagg]
    norm_num

/-- C4. The primary result list is the full sorted list truncated to 20; the
full list is sorted descending by the composite key (lift, then smoothed
recent count) and is a permutation of the included companies' rows, each row
carrying the smoothed `recent_count` and the pre-update `baseline`. -/
theorem C4_ranking (roster : List Company) (st : DetectorState)
    (titles : List String) (ts : String)
    (hnd : (roster.map Company.name).Nodup) :
    (scoreTitles roster st titles ts).1 = (scoreAllTitles roster st titles ts).1.take 20
  ∧ List.Sorted keyGE (scoreAllTitles roster st titles ts).1
  ∧ List.Perm (scoreAllTitles roster st titles ts).1
      (roster.filterMap (fun c =>
        if includeCond (aggCounts roster titles) st c then
          some (entryOf (aggCounts roster titles) ts st c) else none))
  ∧ ∀ r ∈ (scoreAllTitles roster st titles ts).1, ∃ c ∈ roster,
      r.name = c.name
        ∧ r.recentCount = smoothedOf st (aggCounts roster titles) c.name
        ∧ r.baseline = preBase st c.name := by
  refine ⟨rfl, List.sorted_insertionSort keyGE _, ?_, ?_⟩
  · rw [← scoreLoop_results (aggCounts roster titles) ts roster st hnd]
    exact List.perm_insertionSort keyGE _
  · intro r hr
    have hr2 := (List.perm_insertionSort keyGE
      (scoreLoop (aggCounts roster titles) ts roster st).1).mem_iff.mp hr
    rw [scoreLoop_results (aggCounts roster titles) ts roster st hnd] at hr2
    obtain ⟨c, hc, hcr⟩ := List.mem_filterMap.mp hr2
    by_cases hic : includeCond (aggCounts roster titles) st c
    · rw [if_pos hic] at hcr
      obtain rfl := Option.some.inj hcr
      exact ⟨c, hc, rfl, rfl, rfl⟩
    · rw [if_neg hic] at hcr
      exact absurd hcr (by simp)

/-- C4 witness: the ranking theorem applied to a concrete two-company batch. -/
theorem C4_witness :
    (scoreTitles [⟨"A", none, []⟩, ⟨"B", none, []⟩] ⟨[], []⟩ ["A B", "B"] "t").1
      = (scoreAllTitles [⟨"A", none, []⟩, ⟨"B", none, []⟩] ⟨[], []⟩ ["A B", "B"] "t").1.take 20
  ∧ List.Sorted keyGE
      (scoreAllTitles [⟨"A", none, []⟩, ⟨"B", none, []⟩] ⟨[], []⟩ ["A B", "B"] "t").1 := by
  have h := C4_ranking [⟨"A", none, []⟩, ⟨"B", none, []⟩] ⟨[], []⟩ ["A B", "B"] "t"
    (by decide)
  exact ⟨h.1, h.2.1⟩

/-- C9. Nonnegativity is an invariant of the score operation: nonnegative
registers stay nonnegative across a call, and every lift divisor
`baseline + 1.0` is strictly positive. The embedded `scoreTitles` is a total
function, matching the absence of a failure path on valid inputs. -/
theorem C9_nonneg_invariant (roster : List Company) (st : DetectorState)
    (titles : List String) (ts : String)
    (hb : nonnegVals st.baseline) (hr : nonnegVals st.recentEma) :
    nonnegVals (scoreTitles roster st titles ts).2.baseline
  ∧ nonnegVals (scoreTitles roster st titles ts).2.recentEma
  ∧ ∀ c ∈ roster, 0 < preBase st c.name + 1 := by
  have h := scoreLoop_nonneg (aggCounts roster titles) ts roster st hb hr
  refine ⟨h.1, h.2, fun c _ => ?_⟩
  have h2 : (0 : ℚ) ≤ preBase st c.name := plookup_getD_nonneg hb le_rfl
  linarith

/-- C9 witness: the invariant holds on a concrete call from empty state. -/
theorem C9_witness :
    nonnegVals (scoreTitles [⟨"A", none, []⟩] ⟨[], []⟩ ["A"] "t").2.baseline
  ∧ nonnegVals (scoreTitles [⟨"A", none, []⟩] ⟨[], []⟩ ["A"] "t").2.recentEma := by
  have h := C9_nonneg_invariant [⟨"A", none, []⟩] ⟨[], []⟩ ["A"] "t"
    (fun p hp => absurd hp (List.not_mem_nil p))
    (fun p hp => absurd hp (List.not_mem_nil p))
  exact ⟨h.1, h.2.1⟩

/-- C2 (code bug). The spec requires the primary and full views to come from
the identical aggregation and scoring logic as the engine's score operation.
On a roster with one company whose `recent_ema` is 10 and an empty batch,
`score_titles` includes the company (smoothed count 5, lift 6) and halves the
`recent_ema` register, while `refresh_trending` produces an empty full view
and leaves `recent_ema` at 10: the two code paths diverge. -/
theorem C2_paths_diverge :
    (refreshTrending [⟨"A", none, []⟩] ⟨[], [("A", 10)]⟩ [] "t").2.1 = []
  ∧ (scoreAllTitles [⟨"A", none, []⟩] ⟨[], [("A", 10)]⟩ [] "t").1 =
      [entryOf (aggCounts [⟨"A", none, []⟩] []) "t" ⟨[], [("A", 10)]⟩ ⟨"A", none, []⟩]
  ∧ plookup (scoreAllTitles [⟨"A", none, []⟩] ⟨[], [("A", 10)]⟩ [] "t").2.recentEma "A"
      = some 5
  ∧ plookup (refreshTrending [⟨"A", none, []⟩] ⟨[], [("A", 10)]⟩ [] "t").2.2.recentEma "A"
      = some 10 := by
  have hraw : rawOf (aggCounts [⟨"A", none, []⟩] []) "A" = 0 := rfl
  have hpb : preBase ⟨[], [("A", 10)]⟩ "A" = 0 := rfl
  have hprev : prevRec ⟨[], [("A", 10)]⟩ "A" 0 = 10 := rfl
  have hsm : smoothedOf ⟨[], [("A", 10)]⟩ (aggCounts [⟨"A", none, []⟩] []) "A" = 5 := by
    rw [smoothedOf, hraw, hprev, recentAlpha]
    norm_num
  have hlift : liftOf ⟨[], [("A", 10)]⟩ (aggCounts [⟨"A", none, []⟩] []) "A" = 6 := by
    rw [liftOf, hsm, hpb]
    norm_num
  refine ⟨?_, ?_, ?_, rfl⟩
  · have hnot :
        ¬ refreshIncl (aggCounts [⟨"A", none, []⟩] []) ⟨[], [("A", 10)]⟩ ⟨"A", none, []⟩ := by
      intro h
      rcases h with h | h
      · rw [show (⟨"A", none, []⟩ : Company).name = "A" from rfl, hraw] at h
        exact absurd h (by norm_num)
      · rw [show (⟨"A", none, []⟩ : Company).name = "A" from rfl, hraw, hpb] at h
        rw [show ((0 : ℚ) + 1) / (0 + 1) = 1 from by norm_num] at h
        exact absurd h (by norm_num)
    have hshape :
        (refreshTrending [⟨"A", none, []⟩] ⟨[], [("A", 10)]⟩ [] "t").2.1 =
          pySortResults
            ((if refreshIncl (aggCounts [⟨"A", none, []⟩] []) ⟨[], [("A", 10)]⟩
                  ⟨"A", none, []⟩ then
                some (refreshEntryOf (aggCounts [⟨"A", none, []⟩] []) "t"
                  ⟨[], [("A", 10)]⟩ ⟨"A", none, []⟩)
              else none).toList ++ []) := rfl
    rw [hshape, if_neg hnot]
    rfl
  · have hinc :
        includeCond (aggCounts [⟨"A", none, []⟩] []) ⟨[], [("A", 10)]⟩ ⟨"A", none, []⟩ :=
      Or.inr (by
        rw [show (⟨"A", none, []⟩ : Company).name = "A" from rfl, hlift]
        norm_num)
    have hshape :
        (scoreAllTitles [⟨"A", none, []⟩] ⟨[], [("A", 10)]⟩ [] "t").1 =
          pySortResults
            ((if includeCond (aggCounts [⟨"A", none, []⟩] []) ⟨[], [("A", 10)]⟩
                  ⟨"A", none, []⟩ then
                some (entryOf (aggCounts [⟨"A", none, []⟩] []) "t" ⟨[], [("A", 10)]⟩
                  ⟨"A", none, []⟩)
              else none).toList ++ []) := rfl
    rw [hshape, if_pos hinc]
    rfl
  · have hshape :
        plookup (scoreAllTitles [⟨"A", none, []⟩] ⟨[], [("A", 10)]⟩ [] "t").2.recentEma "A"
          = some (smoothedOf ⟨[], [("A", 10)]⟩ (aggCounts [⟨"A", none, []⟩] []) "A") := rfl
    rw [hshape, hsm]

theorem get?_append_cons (l : List Char) (c : Char) (r : List Char) :
    (l ++ c :: r).get? l.length = some c := by
  induction l with
  | nil => rfl
  | cons a t ih => simpa using ih

/-- C5. Name/alias matchers reject a candidate match whose occurrence is
immediately preceded (or followed) by a word character or `$`; concretely,
"AI" does not match inside "MAIL" or next to `$`, matching is
case-insensitive, and the ticker matcher accepts `AI` and `$AI` but rejects
`SAI` and `AIX`. -/
theorem C5_boundary_matching :
    (∀ (pre suf phrase : List Char) (c : Char), (isWordChar c || c == '$') = true →
        matchWordAt (pre ++ c :: suf) phrase (pre.length + 1) = false)
  ∧ (∀ (pre suf phrase : List Char) (c : Char), (isWordChar c || c == '$') = true →
        matchWordAt (pre ++ (phrase ++ c :: suf)) phrase pre.length = false)
  ∧ countWord "MAIL".data "AI".data = 0
  ∧ countWord "the AI boom".data "AI".data = 1
  ∧ countWord "mail ai".data "AI".data = 1
  ∧ countWord "$AI".data "AI".data = 0
  ∧ countTicker "$AI".data "AI".data = 1
  ∧ countTicker "AI".data "AI".data = 1
  ∧ countTicker "SAI".data "AI".data = 0
  ∧ countTicker "AIX".data "AI".data = 0 := by
  refine ⟨?_, ?_, by decide, by decide, by decide, by decide, by decide, by decide,
    by decide, by decide⟩
  · intro pre suf phrase c hc
    have hb : boundaryOkBefore (pre ++ c :: suf) (pre.length + 1) = false := by
      simp only [boundaryOkBefore]
      rw [get?_append_cons pre c suf]
      show (!(isWordChar c || c == '$')) = false
      rw [hc]
      rfl
    simp [matchWordAt, hb]
  · intro pre suf phrase c hc
    have hget : (pre ++ (phrase ++ c :: suf)).get? (pre.length + phrase.length) = some c := by
      rw [← List.append_assoc]
      have h := get?_append_cons (pre ++ phrase) c suf
      rwa [List.length_append] at h
    have ha : boundaryOkAfter (pre ++ (phrase ++ c :: suf)) (pre.length + phrase.length)
        = false := by
      simp only [boundaryOkAfter]
      rw [hget]
      show (!(isWordChar c || c == '$')) = false
      rw [hc]
      rfl
    simp [matchWordAt, ha]

/-- C5 witness: the general rejection lemma applied at the occurrence of "AI"
inside "MAIL" (preceded by the word character `M`). -/
theorem C5_witness :
    (isWordChar 'M' || 'M' == '$') = true
  ∧ matchWordAt "MAIL".data "AI".data 1 = false := by
  refine ⟨by decide, ?_⟩
  exact C5_boundary_matching.1 [] "AIL".data "AI".data 'M' (by decide)

/-- C6. The recorded label is the one of the first-declared surface that
matched: index 0 carries the company name, index `i + 1` the `i`-th alias,
and the index after the aliases the `$ticker` form; across a batch the first
non-empty label wins and is never overwritten. Concretely, a text matching
both a name and an alias reports the name, and a ticker-only match reports
`$ticker`. -/
theorem C6_alias_first_wins :
    (∀ (c : Company) (text : List Char),
        (countCompanyMentions c text).2 =
          (firstIdxFrom text 0 (compileCompany c)).bind (labelOfCompany c))
  ∧ (∀ c : Company, labelOfCompany c 0 = some c.name)
  ∧ (∀ (c : Company) (i : Nat) (a : String), c.aliases.get? i = some a →
        labelOfCompany c (i + 1) = some a)
  ∧ (∀ (c : Company) (t : String), c.ticker = some t →
        labelOfCompany c (c.aliases.length + 1) = some ("$" ++ t))
  ∧ (∀ (titles : List String) (roster : List Company) (n a : String),
        List.findSome? (truthyLabelIn roster n) titles = some a →
        aliasOf (aggCounts roster titles) n = some a)
  ∧ countCompanyMentions ⟨"Apple", some "AAPL", ["Apple Inc"]⟩ "Apple Inc event".data
      = (2, some "Apple")
  ∧ countCompanyMentions ⟨"Foobar", some "FB", []⟩ "$FB".data = (1, some "$FB") := by
  refine ⟨countCompanyMentions_alias, labelOfCompany_zero, labelOfCompany_alias,
    labelOfCompany_ticker, ?_, by decide, by decide⟩
  intro titles roster n a hfind
  exact aggCounts_alias_first titles roster n a [] (Or.inl rfl) hfind

/-- C6 witness: in a two-text batch where the first text matches only an
alias and the second matches the name, the alias (the first non-empty label
encountered) is kept. -/
theorem C6_witness :
    aliasOf (aggCounts [⟨"Apple", none, ["AAPL Inc"]⟩] ["AAPL Inc soars", "Apple event"])
      "Apple" = some "AAPL Inc" := by
  exact C6_alias_first_wins.2.2.2.2.1 ["AAPL Inc soars", "Apple event"]
    [⟨"Apple", none, ["AAPL Inc"]⟩] "Apple" "AAPL Inc" (by decide)

/-- C7 (amended). Restoring state tolerates a falsy or non-dict state value
(falling back to empty registers) and restores any well-formed
string-to-number state, including entries for companies unknown to the
roster (the restore logic never consults the roster); but a dict state whose
`"baseline"` or `"recent_ema"` value is not a dict of float-convertible
values raises. -/
theorem C7_restore_tolerates :
    (∀ j : Json, pyTruthy j = false → restoreState j = Except.ok ⟨[], []⟩)
  ∧ (∀ j : Json, isObj j = false → restoreState j = Except.ok ⟨[], []⟩)
  ∧ (∀ bs rs : List (String × ℚ),
        restoreState
            (Json.obj
              [("baseline", Json.obj (bs.map (fun e => (e.1, Json.num e.2)))),
                ("recent_ema", Json.obj (rs.map (fun e => (e.1, Json.num e.2))))])
          = Except.ok ⟨bs, rs⟩) := by
  refine ⟨?_, ?_, ?_⟩
  · intro j h
    rw [restoreState, if_neg (by rw [h]; simp)]
  · intro j h
    rw [restoreState, if_neg (by rw [h]; simp)]
  · intro bs rs
    exact restoreState_serializeState ⟨bs, rs⟩

/-- C7 counterexample: the claim says restore never fails, but a dict whose
`"baseline"` value is a string makes the constructor call `.items()` on a
non-dict, raising `AttributeError`. -/
theorem C7_counterexample :
    restoreState (Json.obj [("baseline", Json.str "oops"), ("recent_ema", Json.obj [])])
      = Except.error "AttributeError" := rfl

/-- C7 witness: a missing (`None`) state falls back to empty registers. -/
theorem C7_witness :
    pyTruthy Json.null = false ∧ restoreState Json.null = Except.ok ⟨[], []⟩ :=
  ⟨rfl, C7_restore_tolerates.1 Json.null rfl⟩

/-- C8. The serialize/restore round trip restores both registers exactly, so
a scoring call on empty input after the round trip produces the same results
and the same registers as without it (no drift). -/
theorem C8_roundtrip (st : DetectorState) (roster : List Company) (ts : String) :
    restoreState (serializeState st) = Except.ok st
  ∧ scoreTitles roster ((restoreState (serializeState st)).toOption.getD ⟨[], []⟩) [] ts
      = scoreTitles roster st [] ts := by
  refine ⟨restoreState_serializeState st, ?_⟩
  rw [restoreState_serializeState st]
  rfl

/-- C10 (amended). `_clean_alias` first removes `(?i)` occurrences,
lookaround-shaped substrings `(?<!...)` / `(?!...)` and backslashes; if any
of `( ) [ ] ? * +` remains after those removals, the cleaned label is the
empty string; otherwise the result is that string with `$` stripped from
both ends (before the final whitespace trim). -/
theorem C10_clean_alias (label : String) :
    (hasSpecial (cleanRemovals label.data) = true → cleanAlias label = "")
  ∧ (hasSpecial (cleanRemovals label.data) = false →
      cleanAlias label = String.mk (stripWsEnds (stripChar '$' (cleanRemovals label.data)))) := by
  constructor
  · intro h
    by_cases hl : label = ""
    · subst hl
      exact absurd h (by decide)
    · simp only [cleanAlias, if_neg hl]
      rw [if_pos (hasSpecial_stripChar h)]
  · intro h
    by_cases hl : label = ""
    · subst hl
      rfl
    · simp only [cleanAlias, if_neg hl]
      have hns : ¬ hasSpecial (stripChar '$' (cleanRemovals label.data)) = true := by
        intro hh
        rw [hasSpecial_stripChar_rev hh] at h
        exact Bool.noConfusion h
      rw [if_neg hns]

/-- C10 counterexample: the label `a(?i)b` contains `(`, `?` and `)` after
backslash removal, so the claim says the reported label must be empty; the
code removes the `(?i)` substring first and reports `ab`. The full pipeline
shows the non-empty label at the public interface. -/
theorem C10_counterexample :
    ("a(?i)b".data.filter (fun c => c ≠ '\\')).any (fun c => specialChars.contains c) = true
  ∧ cleanAlias "a(?i)b" = "ab"
  ∧ ("ab" : String) ≠ ""
  ∧ (scoreTitles [⟨"a(?i)b", none, []⟩] ⟨[], []⟩ ["a(?i)b"] "t").1.map ScoreResult.aliasUsed
      = [some "ab"] := by
  refine ⟨by decide, by decide, by decide, ?_⟩
  have hagg :
      plookup (aggCounts [⟨"a(?i)b", none, []⟩] ["a(?i)b"]) "a(?i)b"
        = some (1, some "a(?i)b") := by decide
  have hinc :
      includeCond (aggCounts [⟨"a(?i)b", none, []⟩] ["a(?i)b"]) ⟨[], []⟩
        ⟨"a(?i)b", none, []⟩ := by
    refine Or.inl ?_
    rw [show (⟨"a(?i)b", none, []⟩ : Company).name = "a(?i)b" from rfl, rawOf, hagg]
    norm_num
  have hshape :
      (scoreTitles [⟨"a(?i)b", none, []⟩] ⟨[], []⟩ ["a(?i)b"] "t").1 =
        (pySortResults
          ((if includeCond (aggCounts [⟨"a(?i)b", none, []⟩] ["a(?i)b"]) ⟨[], []⟩
                ⟨"a(?i)b", none, []⟩ then
              some (entryOf (aggCounts [⟨"a(?i)b", none, []⟩] ["a(?i)b"]) "t" ⟨[], []⟩
                ⟨"a(?i)b", none, []⟩)
            else none).toList ++ [])).take 20 := rfl
  rw [hshape, if_pos hinc]
  show [(entryOf (aggCounts [⟨"a(?i)b", none, []⟩] ["a(?i)b"]) "t" ⟨[], []⟩
    ⟨"a(?i)b", none, []⟩).aliasUsed] = [some "ab"]
  have : (entryOf (aggCounts [⟨"a(?i)b", none, []⟩] ["a(?i)b"]) "t" ⟨[], []⟩
      ⟨"a(?i)b", none, []⟩).aliasUsed = cleanedAlias (some "a(?i)b") := by
    show cleanedAlias (aliasOf (aggCounts [⟨"a(?i)b", none, []⟩] ["a(?i)b"]) "a(?i)b")
      = cleanedAlias (some "a(?i)b")
    rw [aliasOf, hagg]
    rfl
  rw [this]
  decide

/-- C10 witness: a label whose parenthesis survives the removals is hidden,
and a `$`-prefixed ticker label has its `$` stripped. -/
theorem C10_witness :
    cleanAlias "x(y" = "" ∧ cleanAlias "$AAPL" = "AAPL" := by
  constructor
  · exact (C10_clean_alias "x(y").1 (by decide)
  · have h := (C10_clean_alias "$AAPL").2 (by decide)
    rw [h]
    decide

end Trending
